import Mathlib

/-!
Shallow embedding of src/byesky.py (ByeSky), a fetch-filter-delete pipeline
over a remote feed service.

Modelling conventions:
* Python datetimes are pairs of a displayed clock value (minutes since an
  arbitrary epoch, as an integer) and an optional UTC offset in minutes.
  `datetime.astimezone(timezone.utc)` on the Python versions this program
  runs on (>= 3.6) never raises for offset-naive values: those are presumed
  to be in system local time and are shifted by the local offset, which we
  pass in as a parameter.
* The regular-expression search (`re.compile(p, re.IGNORECASE).search(text)`)
  is an external library call and is modelled as an oracle
  `rs : String → String → Bool`; the case-insensitive substring test
  (`p.lower() in text.lower()`) is modelled executably.
* Side effects of the processing phase (lines 86-178) are modelled as an
  event trace: page fetches, file opens/closes, log writes, backup writes
  and delete calls. Exceptions that the code can encounter while processing
  a post (a raising `f.write`, a raising `backup_fh.write`, an
  exhausted-retry `delete_record`) are injected through a `Behavior` oracle;
  the first two propagate (fatal), the delete failure is caught by the
  `try/except` at lines 170-175.
* Logging via `logger`/`tqdm` display state carries no claim-relevant
  semantics and is not part of the trace.
-/

namespace ByeSky

/-- A parsed Python datetime: the displayed clock value in minutes since an
arbitrary epoch, plus an optional explicit UTC offset in minutes
(`none` = offset-naive). -/
structure PyDateTime where
  clock : Int
  offset : Option Int
deriving DecidableEq, Repr

/-- `d.astimezone(timezone.utc)` as the UTC instant it yields, on Python >= 3.6:
offset-aware values are converted by subtracting their offset; offset-naive
values are presumed to be in system local time (offset `localOff` minutes)
and shifted accordingly. This method raises no exception on these Python
versions. -/
def astimezoneUTC (localOff : Int) (d : PyDateTime) : Int :=
  match d.offset with
  | some o => d.clock - o
  | none => d.clock - localOff

/-- Lines 90-94: `pt = parser.isoparse(...)` then
`try: pt = pt.astimezone(timezone.utc) except: pt = pt.replace(tzinfo=utc)`.
Since `astimezone` is total here, the `except` branch
(`replace(tzinfo=timezone.utc)`, i.e. attach UTC without shifting) is
unreachable, and normalization is exactly `astimezoneUTC`. -/
def normTime (localOff : Int) (d : PyDateTime) : Int :=
  astimezoneUTC localOff d

/-- The normalization the spec describes (refinement comparison only; follows
the words of the spec, not the source): if offset-aware, convert to UTC; if
offset-naive, treat as already UTC, attaching UTC without shifting the
clock value. -/
def specNormalizeUTC (d : PyDateTime) : Int :=
  match d.offset with
  | some o => d.clock - o
  | none => d.clock

/-- The embed descriptor of a post as the source observes it (lines 103-108):
absent (`getattr(item.post, "embed", None)` gives `None`), an
attribute-style object whose type tag `ty` is exposed both as the `$type`
attribute and the `type` attribute, or a mapping with string keys and
values. -/
inductive Embed where
  | noEmbed : Embed
  | obj (ty : String) : Embed
  | dict (entries : List (String × String)) : Embed
deriving DecidableEq, Repr

/-- The tagged view type that marks a repost/share embed in the source. -/
def repostViewType : String := "app.bsky.embed.record#view"

/-- Lines 103-108: `is_repost` as computed by the source. An object embed is
truthy and has the `$type` attribute, so `embed.type` is compared against
the repost view type; a dict embed takes the `elif` branch only when truthy
(non-empty) and compares `embed.get("$type")`; no embed gives `False`. -/
def embedIsRepost : Embed → Bool
  | Embed.noEmbed => false
  | Embed.obj ty => ty == repostViewType
  | Embed.dict entries =>
      if entries.isEmpty then false
      else entries.lookup "$type" == some repostViewType

/-- The type tag an embed descriptor declares, if any: the type attribute of
an object embed, the value at key `$type` of a mapping embed. -/
def embedDeclaredType : Embed → Option String
  | Embed.noEmbed => none
  | Embed.obj ty => some ty
  | Embed.dict entries => entries.lookup "$type"

/-- One post as consumed from a feed page: its uri, its parsed `indexed_at`
timestamp, its record text, whether `getattr(item.post, "reply", None)` is
non-null, and its embed descriptor. -/
structure RawPost where
  uri : String
  indexedAt : PyDateTime
  text : String
  hasReply : Bool
  embed : Embed
deriving DecidableEq, Repr

/-- The filter criteria of one run, fixed before pagination starts:
`cutoff = now - days_old` and the parsed `--after`/`--before` bounds are
UTC instants in minutes. -/
structure Criteria where
  cutoff : Int
  afterDt : Option Int
  beforeDt : Option Int
  patterns : List String
  useRegex : Bool
  includeReplies : Bool
  includeReposts : Bool

/-- Whether a character list starts with the given character list. -/
def leadMatch : List Char → List Char → Bool
  | [], _ => true
  | _ :: _, [] => false
  | a :: as, b :: bs => a == b && leadMatch as bs

/-- Whether the first character list occurs contiguously inside the second. -/
def subMatch : List Char → List Char → Bool
  | p, [] => p.isEmpty
  | p, s@(_ :: t) => leadMatch p s || subMatch p t

/-- Line 124: the Python membership test `p.lower() in text.lower()`. -/
def substrCI (p text : String) : Bool :=
  subMatch p.toLower.data text.toLower.data

/-- Line 111: the exclusion condition
`(is_reply and not include_replies) or (is_repost and not include_reposts)`. -/
def typeExcluded (c : Criteria) (isReplyB isRepostB : Bool) : Bool :=
  (isReplyB && !c.includeReplies) || (isRepostB && !c.includeReposts)

/-- Lines 114-118: `in_range` starts true, is cleared when `after_dt` is set
and `pt < after_dt`, and cleared when `before_dt` is set and
`pt > before_dt`. -/
def inRangeCheck (c : Criteria) (pt : Int) : Bool :=
  (match c.afterDt with
   | some a => !(decide (pt < a))
   | none => true) &&
  (match c.beforeDt with
   | some b => !(decide (pt > b))
   | none => true)

/-- Lines 119-124: `matched` is true when the pattern list is empty
(`compiled_patterns` is non-empty exactly when `match_patterns` is),
otherwise an `any` over regex searches or case-insensitive substring
tests. -/
def patternCheck (rs : String → String → Bool) (c : Criteria)
    (text : String) : Bool :=
  if c.patterns.isEmpty then true
  else if c.useRegex then c.patterns.any (fun p => rs p text)
  else c.patterns.any (fun p => substrCI p text)

/-- Lines 98-126: the inclusion decision for one post. `rs p text` models
`re.compile(p, re.IGNORECASE).search(text)` being non-null. The structure
mirrors the source: the whole block is gated on `pt < cutoff`; replies and
reposts are excluded via `continue`; `in_range` and `matched` are then
conjoined. -/
def keepPost (localOff : Int) (rs : String → String → Bool) (c : Criteria)
    (post : RawPost) : Bool :=
  let pt := normTime localOff post.indexedAt
  if pt < c.cutoff then
    if typeExcluded c post.hasReply (embedIsRepost post.embed) then
      false
    else
      inRangeCheck c pt && patternCheck rs c post.text
  else false

/-- One response of `get_author_feed`: the page items and the next cursor. -/
structure Feed where
  items : List RawPost
  cursor : Option String

/-- Python truthiness of the cursor: `None` and the empty string are falsy. -/
def cursorTruthy : Option String → Bool
  | none => false
  | some s => s ≠ ""

/-- Lines 86-130: the pagination loop. The input list gives the successive
responses the service returns; the loop keeps consuming while the returned
cursor is truthy, filtering each page item through `keepPost` and appending
matches in service-return order. Returns the matched posts and the number
of `fetch_feed_page` calls (= `page_bar.n`). -/
def paginate (localOff : Int) (rs : String → String → Bool) (c : Criteria) :
    List Feed → List RawPost × Nat
  | [] => ([], 0)
  | f :: rest =>
      let kept := f.items.filter (keepPost localOff rs c)
      if cursorTruthy f.cursor then
        let r := paginate localOff rs c rest
        (kept ++ r.1, r.2 + 1)
      else
        (kept, 1)

/-- The feeds the loop actually consumes: every feed up to and including the
first one whose cursor is falsy. -/
def consumedFeeds : List Feed → List Feed
  | [] => []
  | f :: rest =>
      if cursorTruthy f.cursor then f :: consumedFeeds rest else [f]

/-- All items of the consumed feeds, in service-return order: the posts the
run scans. -/
def scannedItems (fs : List Feed) : List RawPost :=
  ((consumedFeeds fs).map Feed.items).flatten

/-- One backup line (lines 165-169): the JSON object
`uri / datetime / post` with the ISO-8601 form of the normalized UTC
instant and the full raw record payload. -/
structure BackupEntry where
  uri : String
  datetime : Int
  post : RawPost
deriving DecidableEq, Repr

/-- The backup line written for a post (lines 165-169). -/
def mkEntry (localOff : Int) (p : RawPost) : BackupEntry :=
  { uri := p.uri, datetime := normTime localOff p.indexedAt, post := p }

/-- Observable side effects of one run, in order: a `fetch_feed_page` call,
the backup-file open (line 149), the log-file open (line 156), a log line
write for the post at position `i` of the matched list (line 162), a backup
line write (lines 165-169), a `delete_record` call (line 171), the log-file
close on leaving the `with` block, and the explicit backup-file close
(lines 177-178). -/
inductive Event where
  | fetchPage (k : Nat) : Event
  | openBackup : Event
  | openLog : Event
  | logWrite (i : Nat) : Event
  | backupWrite (i : Nat) (e : BackupEntry) : Event
  | deleteCall (i : Nat) (uri : String) : Event
  | closeLog : Event
  | closeBackup : Event
deriving DecidableEq, Repr

/-- Failure injection for the processing loop, indexed by the position of the
post in the matched list: `logWriteFatal i` means `f.write` raises at post
`i` (propagates), `backupWriteFatal i` means `backup_fh.write` raises
(propagates), `deleteFails i` means `delete_record` exhausts its retries
and raises (caught at lines 173-175, counted as a failure). -/
structure Behavior where
  logWriteFatal : Nat → Bool
  backupWriteFatal : Nat → Bool
  deleteFails : Nat → Bool

/-- Outcome of the processing loop: the events it emitted, the `deleted` and
`failed` counters, and whether a fatal exception escaped the loop. -/
structure LoopOut where
  evs : List Event
  del : Nat
  fail : Nat
  fatal : Bool
deriving DecidableEq, Repr

/-- Lines 156-176, the per-post loop over the enumerated matched list. Each
iteration writes the log line, then, when not previewing, writes the backup
line and issues the delete call, counting its success or caught failure.
A raising log or backup write stops the loop immediately with `fatal`. -/
def postLoop (localOff : Int) (preview : Bool) (B : Behavior) :
    List (Nat × RawPost) → LoopOut
  | [] => ⟨[], 0, 0, false⟩
  | (i, p) :: rest =>
      if B.logWriteFatal i then ⟨[], 0, 0, true⟩
      else if preview then
        let r := postLoop localOff preview B rest
        ⟨Event.logWrite i :: r.evs, r.del, r.fail, r.fatal⟩
      else if B.backupWriteFatal i then ⟨[Event.logWrite i], 0, 0, true⟩
      else
        let r := postLoop localOff preview B rest
        let evs := Event.logWrite i :: Event.backupWrite i (mkEntry localOff p)
          :: Event.deleteCall i p.uri :: r.evs
        if B.deleteFails i then ⟨evs, r.del, r.fail + 1, r.fatal⟩
        else ⟨evs, r.del + 1, r.fail, r.fatal⟩

/-- The run totals the function returns (lines 135 and 180-185). -/
structure RunResult where
  scanned : Nat
  matched : Nat
  deleted : Nat
  failed : Nat
deriving DecidableEq, Repr

/-- Lines 53-185, `process_posts`: paginate and filter (lines 86-130), return
early with zero counters when nothing matched (lines 132-135), otherwise
open the backup file when not previewing (lines 146-149), run the per-post
loop inside the log-file `with` block (lines 156-176), and close the backup
handle on the normal path (lines 177-178). A fatal exception escaping the
loop leaves the `with` block (closing the log file) and propagates, so no
result is produced and the explicit backup close is skipped. Returns the
full event trace and either the `RunResult` or the propagated error. -/
def processPosts (localOff : Int) (rs : String → String → Bool) (c : Criteria)
    (preview : Bool) (B : Behavior) (fs : List Feed) :
    List Event × Except Unit RunResult :=
  let pg := paginate localOff rs c fs
  let fetchEvs := (List.range pg.2).map Event.fetchPage
  let scanned := pg.2 * 50
  if pg.1.isEmpty then
    (fetchEvs, Except.ok ⟨scanned, 0, 0, 0⟩)
  else
    let pre := if preview then [Event.openLog] else [Event.openBackup, Event.openLog]
    let r := postLoop localOff preview B pg.1.enum
    if r.fatal then
      (fetchEvs ++ pre ++ r.evs ++ [Event.closeLog], Except.error ())
    else
      (fetchEvs ++ pre ++ r.evs ++ [Event.closeLog] ++
        (if preview then [] else [Event.closeBackup]),
       Except.ok ⟨scanned, pg.1.length, r.del, r.fail⟩)

/-- Lines 230-234 of `cli`: the app password actually used for login, given
the `--token` flag value, the `BYESKY_TOKEN` environment value, and what an
interactive prompt would return. `if not token:` consults the environment
only when the flag is `None` or empty; the prompt is the last resort. -/
def resolveToken (flag envVar : Option String) (prompted : String) : String :=
  let t1 := match flag with
    | some s => if s = "" then envVar else some s
    | none => envVar
  match t1 with
  | some s => if s = "" then prompted else s
  | none => prompted

/-- Event `a` occurs strictly before event `b` in the trace `t` (some
occurrence of `a` precedes some occurrence of `b`). -/
def precedes (a b : Event) (t : List Event) : Prop :=
  ∃ l1 l2 l3, t = l1 ++ a :: l2 ++ b :: l3

/-- Whether an event is a page fetch. -/
def isFetchPage : Event → Bool
  | Event.fetchPage _ => true
  | _ => false

/-- Whether an event is an output action: a log write, a backup write, or a
delete call. -/
def isOutputEvent : Event → Bool
  | Event.logWrite _ => true
  | Event.backupWrite _ _ => true
  | Event.deleteCall _ _ => true
  | _ => false

/-- The matched-list position a delete-call event carries, if any. -/
def deleteIdx : Event → Option Nat
  | Event.deleteCall i _ => some i
  | _ => none

/-- A constantly-false regex oracle, used to instantiate theorems on concrete
inputs. -/
def rsNone : String → String → Bool := fun _ _ => false

/-- A sample post older than the sample cutoff. -/
def samplePost : RawPost :=
  { uri := "at://did:plc:alice/app.bsky.feed.post/3k1"
    indexedAt := ⟨0, some 0⟩
    text := "hello world"
    hasReply := false
    embed := Embed.noEmbed }

/-- Sample criteria: cutoff at instant 100, no range bounds, no patterns. -/
def sampleCrit : Criteria :=
  { cutoff := 100, afterDt := none, beforeDt := none, patterns := []
    useRegex := false, includeReplies := false, includeReposts := false }

/-- A single feed page holding the sample post, with no further cursor. -/
def sampleFeed : Feed := { items := [samplePost], cursor := none }

/-- A run in which no injected failure occurs. -/
def sampleB : Behavior := ⟨fun _ => false, fun _ => false, fun _ => false⟩

/-- A run in which every delete call exhausts its retries and fails. -/
def sampleBFail : Behavior := ⟨fun _ => false, fun _ => false, fun _ => true⟩

/-- A run in which the first log write raises a fatal error. -/
def sampleBLogFatal : Behavior := ⟨fun _ => true, fun _ => false, fun _ => false⟩

/-! ### Helper lemmas -/

theorem inRangeCheck_eq_true_iff (c : Criteria) (pt : Int) :
    inRangeCheck c pt = true ↔
      (∀ a, c.afterDt = some a → a ≤ pt) ∧ (∀ b, c.beforeDt = some b → pt ≤ b) := by
  unfold inRangeCheck
  rcases c with ⟨cut, aft, bef, pats, ur, incr, incrp⟩
  cases aft <;> cases bef <;> simp

theorem patternCheck_eq_true_iff (rs : String → String → Bool) (c : Criteria)
    (text : String) :
    patternCheck rs c text = true ↔
      (c.patterns = [] ∨ ∃ q ∈ c.patterns,
        (if c.useRegex = true then rs q text else substrCI q text) = true) := by
  unfold patternCheck
  rcases c with ⟨cut, aft, bef, pats, ur, incr, incrp⟩
  cases pats <;> cases ur <;> simp [List.any_eq_true]

theorem typeExcluded_eq_false_iff (c : Criteria) (r p : Bool) :
    typeExcluded c r p = false ↔
      ¬(r = true ∧ c.includeReplies = false) ∧
      ¬(p = true ∧ c.includeReposts = false) := by
  unfold typeExcluded
  cases r <;> cases p <;> cases hr : c.includeReplies <;>
    cases hp : c.includeReposts <;> simp

theorem keepPost_eq_true_iff (localOff : Int) (rs : String → String → Bool)
    (c : Criteria) (p : RawPost) :
    keepPost localOff rs c p = true ↔
      (normTime localOff p.indexedAt < c.cutoff ∧
       ¬(p.hasReply = true ∧ c.includeReplies = false) ∧
       ¬(embedIsRepost p.embed = true ∧ c.includeReposts = false) ∧
       (∀ a, c.afterDt = some a → a ≤ normTime localOff p.indexedAt) ∧
       (∀ b, c.beforeDt = some b → normTime localOff p.indexedAt ≤ b) ∧
       (c.patterns = [] ∨ ∃ q ∈ c.patterns,
         (if c.useRegex = true then rs q p.text else substrCI q p.text) = true)) := by
  unfold keepPost
  by_cases h1 : normTime localOff p.indexedAt < c.cutoff
  · rw [if_pos h1]
    by_cases h2 : typeExcluded c p.hasReply (embedIsRepost p.embed) = true
    · rw [if_pos h2]
      constructor
      · intro hf; exact absurd hf (by simp)
      · rintro ⟨-, hrep, hrepost, -, -, -⟩
        have hfalse := (typeExcluded_eq_false_iff c p.hasReply
          (embedIsRepost p.embed)).mpr ⟨hrep, hrepost⟩
        rw [h2] at hfalse
        simp at hfalse
    · rw [if_neg h2]
      rw [Bool.not_eq_true] at h2
      rw [typeExcluded_eq_false_iff] at h2
      simp only [Bool.and_eq_true, inRangeCheck_eq_true_iff, patternCheck_eq_true_iff]
      constructor
      · rintro ⟨⟨hr1, hr2⟩, hm⟩
        exact ⟨h1, h2.1, h2.2, hr1, hr2, hm⟩
      · rintro ⟨-, -, -, hr1, hr2, hm⟩
        exact ⟨⟨hr1, hr2⟩, hm⟩
  · rw [if_neg h1]
    constructor
    · intro hf; exact absurd hf (by simp)
    · rintro ⟨hc, -⟩; exact absurd hc h1

theorem paginate_fst_eq (localOff : Int) (rs : String → String → Bool)
    (c : Criteria) (fs : List Feed) :
    (paginate localOff rs c fs).1
      = (scannedItems fs).filter (keepPost localOff rs c) := by
  induction fs with
  | nil => simp [paginate, scannedItems, consumedFeeds]
  | cons f rest ih =>
      by_cases h : cursorTruthy f.cursor = true
      · have hs : scannedItems (f :: rest) = f.items ++ scannedItems rest := by
          simp [scannedItems, consumedFeeds, h]
        rw [hs, List.filter_append, ← ih]
        simp [paginate, h]
      · rw [Bool.not_eq_true] at h
        have hs : scannedItems (f :: rest) = f.items := by
          simp [scannedItems, consumedFeeds, h]
        rw [hs]
        simp [paginate, h]

theorem postLoop_evs_cons (localOff : Int) (B : Behavior) (j : Nat) (p : RawPost)
    (rest : List (Nat × RawPost)) :
    (postLoop localOff false B ((j, p) :: rest)).evs =
      if B.logWriteFatal j then []
      else if B.backupWriteFatal j then [Event.logWrite j]
      else Event.logWrite j :: Event.backupWrite j (mkEntry localOff p)
        :: Event.deleteCall j p.uri :: (postLoop localOff false B rest).evs := by
  by_cases h1 : B.logWriteFatal j = true
  · simp [postLoop, h1]
  · rw [Bool.not_eq_true] at h1
    by_cases h2 : B.backupWriteFatal j = true
    · simp [postLoop, h1, h2]
    · rw [Bool.not_eq_true] at h2
      by_cases h3 : B.deleteFails j = true
      · simp [postLoop, h1, h2, h3]
      · rw [Bool.not_eq_true] at h3
        simp [postLoop, h1, h2, h3]

theorem postLoop_preview (localOff : Int) (B : Behavior)
    (ps : List (Nat × RawPost)) :
    (∀ e ∈ (postLoop localOff true B ps).evs, ∃ i, e = Event.logWrite i) ∧
    (postLoop localOff true B ps).del = 0 ∧
    (postLoop localOff true B ps).fail = 0 := by
  induction ps with
  | nil => simp [postLoop]
  | cons hd rest ih =>
      obtain ⟨j, p⟩ := hd
      by_cases h1 : B.logWriteFatal j = true
      · simp [postLoop, h1]
      · rw [Bool.not_eq_true] at h1
        obtain ⟨ihe, ihd, ihf⟩ := ih
        refine ⟨?_, by simp [postLoop, h1, ihd], by simp [postLoop, h1, ihf]⟩
        intro e he
        simp only [postLoop, h1, Bool.false_eq_true, if_false, if_true,
          List.mem_cons] at he
        rcases he with rfl | he
        · exact ⟨j, rfl⟩
        · exact ihe e he

theorem postLoop_count (localOff : Int) (B : Behavior)
    (ps : List (Nat × RawPost)) :
    (postLoop localOff false B ps).fatal = false →
    (postLoop localOff false B ps).del + (postLoop localOff false B ps).fail
      = ps.length := by
  induction ps with
  | nil => intro _; simp [postLoop]
  | cons hd rest ih =>
      obtain ⟨j, p⟩ := hd
      intro h
      by_cases h1 : B.logWriteFatal j = true
      · simp [postLoop, h1] at h
      · rw [Bool.not_eq_true] at h1
        by_cases h2 : B.backupWriteFatal j = true
        · simp [postLoop, h1, h2] at h
        · rw [Bool.not_eq_true] at h2
          by_cases h3 : B.deleteFails j = true
          · simp only [postLoop, h1, h2, h3, Bool.false_eq_true, if_false,
              if_true] at h ⊢
            have := ih h
            simp only [List.length_cons]
            omega
          · rw [Bool.not_eq_true] at h3
            simp only [postLoop, h1, h2, h3, Bool.false_eq_true, if_false,
              if_true] at h ⊢
            have := ih h
            simp only [List.length_cons]
            omega

theorem postLoop_no_fetch (localOff : Int) (pv : Bool) (B : Behavior)
    (ps : List (Nat × RawPost)) :
    ∀ e ∈ (postLoop localOff pv B ps).evs, isFetchPage e = false := by
  induction ps with
  | nil => simp [postLoop]
  | cons hd rest ih =>
      obtain ⟨j, p⟩ := hd
      intro e he
      by_cases h1 : B.logWriteFatal j = true
      · simp [postLoop, h1] at he
      · rw [Bool.not_eq_true] at h1
        cases pv with
        | true =>
            simp only [postLoop, h1, Bool.false_eq_true, if_false, if_true,
              List.mem_cons] at he
            rcases he with rfl | he
            · rfl
            · exact ih e he
        | false =>
            rw [postLoop_evs_cons] at he
            by_cases h2 : B.backupWriteFatal j = true
            · rw [if_neg (by simp [h1]), if_pos h2] at he
              simp only [List.mem_singleton] at he
              subst he; rfl
            · rw [if_neg (by simp [h1]), if_neg h2] at he
              simp only [List.mem_cons] at he
              rcases he with rfl | rfl | rfl | he
              · rfl
              · rfl
              · rfl
              · exact ih e he

theorem postLoop_delete_mem (localOff : Int) (pv : Bool) (B : Behavior)
    (ps : List (Nat × RawPost)) (i : Nat) (u : String) :
    Event.deleteCall i u ∈ (postLoop localOff pv B ps).evs →
    ∃ p, (i, p) ∈ ps ∧ u = p.uri := by
  induction ps with
  | nil => intro h; simp [postLoop] at h
  | cons hd rest ih =>
      obtain ⟨j, p⟩ := hd
      intro h
      by_cases h1 : B.logWriteFatal j = true
      · simp [postLoop, h1] at h
      · rw [Bool.not_eq_true] at h1
        cases pv with
        | true =>
            simp only [postLoop, h1, Bool.false_eq_true, if_false, if_true,
              List.mem_cons] at h
            rcases h with h | h
            · exact absurd h (by simp)
            · obtain ⟨q, hq, hu⟩ := ih h
              exact ⟨q, List.mem_cons_of_mem _ hq, hu⟩
        | false =>
            rw [postLoop_evs_cons] at h
            by_cases h2 : B.backupWriteFatal j = true
            · rw [if_neg (by simp [h1]), if_pos h2] at h
              simp at h
            · rw [if_neg (by simp [h1]), if_neg h2] at h
              simp only [List.mem_cons] at h
              rcases h with h | h | h | h
              · exact absurd h (by simp)
              · exact absurd h (by simp)
              · rw [Event.deleteCall.injEq] at h
                exact ⟨p, by simp [h.1], h.2⟩
              · obtain ⟨q, hq, hu⟩ := ih h
                exact ⟨q, List.mem_cons_of_mem _ hq, hu⟩

theorem precedes_cons (a b x : Event) (t : List Event) (h : precedes a b t) :
    precedes a b (x :: t) := by
  obtain ⟨l1, l2, l3, rfl⟩ := h
  exact ⟨x :: l1, l2, l3, rfl⟩

theorem precedes_append_left (a b : Event) (pre t : List Event)
    (h : precedes a b t) : precedes a b (pre ++ t) := by
  obtain ⟨l1, l2, l3, rfl⟩ := h
  exact ⟨pre ++ l1, l2, l3, by simp⟩

theorem precedes_append_right (a b : Event) (t post' : List Event)
    (h : precedes a b t) : precedes a b (t ++ post') := by
  obtain ⟨l1, l2, l3, rfl⟩ := h
  refine ⟨l1, l2, l3 ++ post', ?_⟩
  simp

theorem postLoop_backup_precedes (localOff : Int) (B : Behavior)
    (ps : List (Nat × RawPost)) (i : Nat) (u : String) :
    Event.deleteCall i u ∈ (postLoop localOff false B ps).evs →
    ∃ p, (i, p) ∈ ps ∧ u = p.uri ∧
      precedes (Event.backupWrite i (mkEntry localOff p))
        (Event.deleteCall i u) (postLoop localOff false B ps).evs := by
  induction ps with
  | nil => intro h; simp [postLoop] at h
  | cons hd rest ih =>
      obtain ⟨j, p⟩ := hd
      rw [postLoop_evs_cons]
      by_cases h1 : B.logWriteFatal j = true
      · rw [if_pos h1]; intro h; simp at h
      · rw [Bool.not_eq_true] at h1
        rw [if_neg (by simp [h1])]
        by_cases h2 : B.backupWriteFatal j = true
        · rw [if_pos h2]; intro h; simp at h
        · rw [if_neg h2]
          intro h
          simp only [List.mem_cons] at h
          rcases h with h | h | h | h
          · exact absurd h (by simp)
          · exact absurd h (by simp)
          · rw [Event.deleteCall.injEq] at h
            refine ⟨p, ?_, h.2, ?_⟩
            · rw [h.1]; exact List.mem_cons_self _ _
            · rw [h.1, h.2]
              exact ⟨[Event.logWrite j], [],
                (postLoop localOff false B rest).evs, rfl⟩
          · obtain ⟨q, hq, hu, hpre⟩ := ih h
            refine ⟨q, List.mem_cons_of_mem _ hq, hu, ?_⟩
            exact precedes_cons _ _ _ _ (precedes_cons _ _ _ _ (precedes_cons _ _ _ _ hpre))

theorem postLoop_delete_indices (localOff : Int) (pv : Bool) (B : Behavior)
    (ps : List RawPost) (k : Nat) :
    (∀ i ∈ ((postLoop localOff pv B (ps.enumFrom k)).evs.filterMap deleteIdx),
      k ≤ i) ∧
    List.Pairwise (fun a b => a < b)
      ((postLoop localOff pv B (ps.enumFrom k)).evs.filterMap deleteIdx) := by
  induction ps generalizing k with
  | nil => simp [postLoop]
  | cons p rest ih =>
      simp only [List.enumFrom]
      by_cases h1 : B.logWriteFatal k = true
      · simp [postLoop, h1]
      · rw [Bool.not_eq_true] at h1
        cases pv with
        | true =>
            simp only [postLoop, h1, Bool.false_eq_true, if_false, if_true,
              List.filterMap_cons]
            simp only [deleteIdx]
            obtain ⟨ihb, ihp⟩ := ih (k + 1)
            exact ⟨fun i hi => le_of_lt (Nat.lt_of_succ_le (ihb i hi)),
              ihp⟩
        | false =>
            rw [postLoop_evs_cons]
            by_cases h2 : B.backupWriteFatal k = true
            · rw [if_neg (by simp [h1]), if_pos h2]
              simp [deleteIdx]
            · rw [if_neg (by simp [h1]), if_neg h2]
              simp only [List.filterMap_cons, deleteIdx]
              obtain ⟨ihb, ihp⟩ := ih (k + 1)
              constructor
              · intro i hi
                simp only [List.mem_cons] at hi
                rcases hi with rfl | hi
                · exact le_refl _
                · exact le_of_lt (Nat.lt_of_succ_le (ihb i hi))
              · rw [List.pairwise_cons]
                exact ⟨fun i hi => Nat.lt_of_succ_le (ihb i hi), ihp⟩

theorem processPosts_empty (localOff : Int) (rs : String → String → Bool)
    (c : Criteria) (pv : Bool) (B : Behavior) (fs : List Feed)
    (h : (paginate localOff rs c fs).1.isEmpty = true) :
    processPosts localOff rs c pv B fs =
      ((List.range (paginate localOff rs c fs).2).map Event.fetchPage,
       Except.ok ⟨(paginate localOff rs c fs).2 * 50, 0, 0, 0⟩) := by
  simp [processPosts, h]

theorem processPosts_fatal (localOff : Int) (rs : String → String → Bool)
    (c : Criteria) (pv : Bool) (B : Behavior) (fs : List Feed)
    (h : (paginate localOff rs c fs).1.isEmpty = false)
    (hf : (postLoop localOff pv B (paginate localOff rs c fs).1.enum).fatal = true) :
    processPosts localOff rs c pv B fs =
      ((List.range (paginate localOff rs c fs).2).map Event.fetchPage ++
        (if pv then [Event.openLog] else [Event.openBackup, Event.openLog]) ++
        (postLoop localOff pv B (paginate localOff rs c fs).1.enum).evs ++
        [Event.closeLog],
       Except.error ()) := by
  simp [processPosts, h, hf]

theorem processPosts_normal (localOff : Int) (rs : String → String → Bool)
    (c : Criteria) (pv : Bool) (B : Behavior) (fs : List Feed)
    (h : (paginate localOff rs c fs).1.isEmpty = false)
    (hf : (postLoop localOff pv B (paginate localOff rs c fs).1.enum).fatal = false) :
    processPosts localOff rs c pv B fs =
      ((List.range (paginate localOff rs c fs).2).map Event.fetchPage ++
        (if pv then [Event.openLog] else [Event.openBackup, Event.openLog]) ++
        (postLoop localOff pv B (paginate localOff rs c fs).1.enum).evs ++
        [Event.closeLog] ++ (if pv then [] else [Event.closeBackup]),
       Except.ok ⟨(paginate localOff rs c fs).2 * 50,
         (paginate localOff rs c fs).1.length,
         (postLoop localOff pv B (paginate localOff rs c fs).1.enum).del,
         (postLoop localOff pv B (paginate localOff rs c fs).1.enum).fail⟩) := by
  simp [processPosts, h, hf]

theorem preview_trace_shape (localOff : Int) (rs : String → String → Bool)
    (c : Criteria) (B : Behavior) (fs : List Feed) :
    ∀ e ∈ (processPosts localOff rs c true B fs).1,
      (∃ k, e = Event.fetchPage k) ∨ e = Event.openLog ∨
      (∃ i, e = Event.logWrite i) ∨ e = Event.closeLog := by
  have hlog := (postLoop_preview localOff B (paginate localOff rs c fs).1.enum).1
  by_cases hE : (paginate localOff rs c fs).1.isEmpty = true
  · rw [processPosts_empty _ _ _ _ _ _ hE]
    intro e he
    simp only [List.mem_map] at he
    obtain ⟨k, -, hk⟩ := he
    exact Or.inl ⟨k, hk.symm⟩
  · rw [Bool.not_eq_true] at hE
    intro e he
    by_cases hF : (postLoop localOff true B (paginate localOff rs c fs).1.enum).fatal = true
    · rw [processPosts_fatal _ _ _ _ _ _ hE hF] at he
      simp only [if_true, List.mem_append, List.mem_map, List.mem_cons,
        List.not_mem_nil, or_false] at he
      rcases he with ((⟨k, -, hk⟩ | he) | he) | he
      · exact Or.inl ⟨k, hk.symm⟩
      · exact Or.inr (Or.inl he)
      · obtain ⟨i, hi⟩ := hlog e he
        exact Or.inr (Or.inr (Or.inl ⟨i, hi⟩))
      · exact Or.inr (Or.inr (Or.inr he))
    · rw [Bool.not_eq_true] at hF
      rw [processPosts_normal _ _ _ _ _ _ hE hF] at he
      simp only [if_true, List.append_nil, List.mem_append, List.mem_map,
        List.mem_cons, List.not_mem_nil, or_false] at he
      rcases he with (((⟨k, -, hk⟩ | he) | he) | he)
      · exact Or.inl ⟨k, hk.symm⟩
      · exact Or.inr (Or.inl he)
      · obtain ⟨i, hi⟩ := hlog e he
        exact Or.inr (Or.inr (Or.inl ⟨i, hi⟩))
      · exact Or.inr (Or.inr (Or.inr he))

theorem precedes_embed (a b : Event) (pre t post' : List Event)
    (h : precedes a b t) : precedes a b (pre ++ t ++ post') := by
  obtain ⟨l1, l2, l3, rfl⟩ := h
  exact ⟨pre ++ l1, l2, l3 ++ post', by simp⟩

theorem countP_fetch_map (l : List Nat) :
    ((l.map Event.fetchPage).countP isFetchPage) = l.length := by
  induction l with
  | nil => simp
  | cons a t ih => simp [List.countP_cons, isFetchPage, ih]

theorem countP_fetch_range (n : Nat) :
    List.countP (isFetchPage ∘ Event.fetchPage) (List.range n) = n := by
  have hc : (isFetchPage ∘ Event.fetchPage) = (fun _ : Nat => true) :=
    funext (fun k => rfl)
  rw [hc]
  simp [List.countP_true]

/-! ### Claims -/

/-- C2: a post is in the matched set exactly when it was among the scanned
items and: its normalized indexedAt is strictly before the cutoff (so any
post at or after the cutoff is excluded whatever the other criteria); it is
not a reply while replies are excluded and not a repost while reposts are
excluded; when afterInstant is set, indexedAt is at or after it, and when
beforeInstant is set, indexedAt is at or before it (both bounds inclusive);
and the pattern list is empty or some pattern matches the text, by regex
search when useRegex and by case-insensitive substring test otherwise. -/
theorem c2_matched_set_iff (localOff : Int) (rs : String → String → Bool)
    (c : Criteria) (fs : List Feed) (p : RawPost) :
    p ∈ (paginate localOff rs c fs).1 ↔
      (p ∈ scannedItems fs ∧
       normTime localOff p.indexedAt < c.cutoff ∧
       ¬(p.hasReply = true ∧ c.includeReplies = false) ∧
       ¬(embedIsRepost p.embed = true ∧ c.includeReposts = false) ∧
       (∀ a, c.afterDt = some a → a ≤ normTime localOff p.indexedAt) ∧
       (∀ b, c.beforeDt = some b → normTime localOff p.indexedAt ≤ b) ∧
       (c.patterns = [] ∨ ∃ q ∈ c.patterns,
         (if c.useRegex = true then rs q p.text else substrCI q p.text) = true)) := by
  rw [paginate_fst_eq, List.mem_filter, keepPost_eq_true_iff]

theorem c2_matched_set_iff_witness :
    samplePost ∈ (paginate 0 rsNone sampleCrit [sampleFeed]).1 :=
  (c2_matched_set_iff 0 rsNone sampleCrit [sampleFeed] samplePost).mpr
    ⟨by decide, by decide, by decide, by decide,
     fun a h => by simp [sampleCrit] at h,
     fun b h => by simp [sampleCrit] at h,
     Or.inl rfl⟩

/-- C3: in preview mode the trace never contains the backup-file open, a
backup write, or a delete call, and whenever a RunResult is returned its
deleted and failed counters are zero. -/
theorem c3_preview_invariant (localOff : Int) (rs : String → String → Bool)
    (c : Criteria) (B : Behavior) (fs : List Feed) :
    Event.openBackup ∉ (processPosts localOff rs c true B fs).1 ∧
    (∀ i e, Event.backupWrite i e ∉ (processPosts localOff rs c true B fs).1) ∧
    (∀ i u, Event.deleteCall i u ∉ (processPosts localOff rs c true B fs).1) ∧
    (∀ r, (processPosts localOff rs c true B fs).2 = Except.ok r →
      r.deleted = 0 ∧ r.failed = 0) := by
  refine ⟨?_, ?_, ?_, ?_⟩
  · intro hmem
    rcases preview_trace_shape localOff rs c B fs _ hmem with
      ⟨k, hk⟩ | hh | ⟨i, hi⟩ | hh <;> simp_all
  · intro i e hmem
    rcases preview_trace_shape localOff rs c B fs _ hmem with
      ⟨k, hk⟩ | hh | ⟨j, hj⟩ | hh <;> simp_all
  · intro i u hmem
    rcases preview_trace_shape localOff rs c B fs _ hmem with
      ⟨k, hk⟩ | hh | ⟨j, hj⟩ | hh <;> simp_all
  · intro r h
    by_cases hE : (paginate localOff rs c fs).1.isEmpty = true
    · rw [processPosts_empty _ _ _ _ _ _ hE] at h
      rw [Except.ok.injEq] at h
      subst h
      exact ⟨rfl, rfl⟩
    · rw [Bool.not_eq_true] at hE
      by_cases hF : (postLoop localOff true B
          (paginate localOff rs c fs).1.enum).fatal = true
      · rw [processPosts_fatal _ _ _ _ _ _ hE hF] at h
        simp at h
      · rw [Bool.not_eq_true] at hF
        rw [processPosts_normal _ _ _ _ _ _ hE hF] at h
        rw [Except.ok.injEq] at h
        subst h
        have hp := postLoop_preview localOff B (paginate localOff rs c fs).1.enum
        exact ⟨hp.2.1, hp.2.2⟩

theorem c3_preview_invariant_witness :
    Event.openBackup ∉ (processPosts 0 rsNone sampleCrit true sampleB [sampleFeed]).1 ∧
    Event.backupWrite 0 (mkEntry 0 samplePost)
      ∉ (processPosts 0 rsNone sampleCrit true sampleB [sampleFeed]).1 ∧
    Event.deleteCall 0 samplePost.uri
      ∉ (processPosts 0 rsNone sampleCrit true sampleB [sampleFeed]).1 ∧
    (RunResult.mk 50 1 0 0).deleted = 0 ∧ (RunResult.mk 50 1 0 0).failed = 0 := by
  obtain ⟨h1, h2, h3, h4⟩ := c3_preview_invariant 0 rsNone sampleCrit sampleB [sampleFeed]
  exact ⟨h1, h2 0 _, h3 0 _, h4 ⟨50, 1, 0, 0⟩ rfl⟩

/-- C4: whenever a non-preview run returns a RunResult, its deleted and
failed counters sum to its matched counter, and matched is the size of the
filtered set. -/
theorem c4_deleted_failed_matched (localOff : Int) (rs : String → String → Bool)
    (c : Criteria) (B : Behavior) (fs : List Feed) (r : RunResult)
    (h : (processPosts localOff rs c false B fs).2 = Except.ok r) :
    r.deleted + r.failed = r.matched ∧
    r.matched = (paginate localOff rs c fs).1.length := by
  by_cases hE : (paginate localOff rs c fs).1.isEmpty = true
  · rw [processPosts_empty _ _ _ _ _ _ hE] at h
    rw [Except.ok.injEq] at h
    subst h
    rw [List.isEmpty_iff] at hE
    exact ⟨rfl, by simp [hE]⟩
  · rw [Bool.not_eq_true] at hE
    by_cases hF : (postLoop localOff false B
        (paginate localOff rs c fs).1.enum).fatal = true
    · rw [processPosts_fatal _ _ _ _ _ _ hE hF] at h
      simp at h
    · rw [Bool.not_eq_true] at hF
      rw [processPosts_normal _ _ _ _ _ _ hE hF] at h
      rw [Except.ok.injEq] at h
      subst h
      refine ⟨?_, rfl⟩
      have hc := postLoop_count localOff B (paginate localOff rs c fs).1.enum hF
      simpa [List.enum_length] using hc

theorem c4_deleted_failed_matched_witness :
    (RunResult.mk 50 1 0 1).deleted + (RunResult.mk 50 1 0 1).failed
      = (RunResult.mk 50 1 0 1).matched :=
  (c4_deleted_failed_matched 0 rsNone sampleCrit sampleBFail [sampleFeed]
    ⟨50, 1, 0, 1⟩ rfl).1

/-- C9: whenever a run returns a RunResult, its scanned counter equals the
number of page-fetch calls in the trace times the fixed page size 50,
independently of how many posts the pages contained, on the empty-match
early return and on the normal return alike. -/
theorem c9_scanned_eq (localOff : Int) (rs : String → String → Bool)
    (c : Criteria) (pv : Bool) (B : Behavior) (fs : List Feed) (r : RunResult)
    (h : (processPosts localOff rs c pv B fs).2 = Except.ok r) :
    r.scanned
      = ((processPosts localOff rs c pv B fs).1.countP isFetchPage) * 50 := by
  have hevs : (postLoop localOff pv B
      (paginate localOff rs c fs).1.enum).evs.countP isFetchPage = 0 :=
    List.countP_eq_zero.mpr (fun e he => by
      have hne := postLoop_no_fetch localOff pv B _ e he
      simp [hne])
  by_cases hE : (paginate localOff rs c fs).1.isEmpty = true
  · rw [processPosts_empty _ _ _ _ _ _ hE] at h ⊢
    rw [Except.ok.injEq] at h
    subst h
    simp [countP_fetch_map, countP_fetch_range, List.length_range]
  · rw [Bool.not_eq_true] at hE
    by_cases hF : (postLoop localOff pv B
        (paginate localOff rs c fs).1.enum).fatal = true
    · rw [processPosts_fatal _ _ _ _ _ _ hE hF] at h
      simp at h
    · rw [Bool.not_eq_true] at hF
      rw [processPosts_normal _ _ _ _ _ _ hE hF] at h ⊢
      rw [Except.ok.injEq] at h
      subst h
      cases pv <;>
        simp [List.countP_append, List.countP_cons, isFetchPage,
          countP_fetch_map, countP_fetch_range, List.length_range, hevs]

theorem c9_scanned_eq_witness :
    (RunResult.mk 50 1 1 0).scanned
      = ((processPosts 0 rsNone sampleCrit false sampleB [sampleFeed]).1.countP
          isFetchPage) * 50 :=
  c9_scanned_eq 0 rsNone sampleCrit false sampleB [sampleFeed] ⟨50, 1, 1, 0⟩ rfl

theorem processPosts_trace_split (localOff : Int) (rs : String → String → Bool)
    (c : Criteria) (pv : Bool) (B : Behavior) (fs : List Feed) :
    ∃ rest, (processPosts localOff rs c pv B fs).1
        = (List.range (paginate localOff rs c fs).2).map Event.fetchPage ++ rest ∧
      (∀ e ∈ rest, isFetchPage e = false) ∧
      List.Pairwise (fun a b => a < b) (rest.filterMap deleteIdx) ∧
      (∀ i u, Event.deleteCall i u ∈ rest →
        ∃ p, (i, p) ∈ (paginate localOff rs c fs).1.enum ∧ u = p.uri) := by
  have henum : (paginate localOff rs c fs).1.enum
      = List.enumFrom 0 (paginate localOff rs c fs).1 := rfl
  have hidx := postLoop_delete_indices localOff pv B (paginate localOff rs c fs).1 0
  have hPW : List.Pairwise (fun a b => a < b)
      ((postLoop localOff pv B (paginate localOff rs c fs).1.enum).evs.filterMap
        deleteIdx) := by
    rw [henum]; exact hidx.2
  have hNoF := postLoop_no_fetch localOff pv B (paginate localOff rs c fs).1.enum
  have hDM := postLoop_delete_mem localOff pv B (paginate localOff rs c fs).1.enum
  by_cases hE : (paginate localOff rs c fs).1.isEmpty = true
  · rw [processPosts_empty _ _ _ _ _ _ hE]
    exact ⟨[], by simp, by simp, by simp, by simp⟩
  · rw [Bool.not_eq_true] at hE
    by_cases hF : (postLoop localOff pv B
        (paginate localOff rs c fs).1.enum).fatal = true
    · rw [processPosts_fatal _ _ _ _ _ _ hE hF]
      refine ⟨(if pv then [Event.openLog] else [Event.openBackup, Event.openLog]) ++
        ((postLoop localOff pv B (paginate localOff rs c fs).1.enum).evs ++
          [Event.closeLog]), by simp, ?_, ?_, ?_⟩
      · intro e he
        rcases List.mem_append.mp he with hp | he2
        · cases pv <;> cases e <;> simp_all [isFetchPage]
        · rcases List.mem_append.mp he2 with hv | hc
          · exact hNoF e hv
          · simp only [List.mem_singleton] at hc; subst hc; rfl
      · have h1 : List.filterMap deleteIdx
            (if pv then [Event.openLog]
             else [Event.openBackup, Event.openLog]) = [] := by
          cases pv <;> rfl
        have h2 : List.filterMap deleteIdx [Event.closeLog] = [] := rfl
        rw [List.filterMap_append, List.filterMap_append, h1, h2,
          List.append_nil, List.nil_append]
        exact hPW
      · intro i u hmem
        rcases List.mem_append.mp hmem with hp | he2
        · cases pv <;> simp_all
        · rcases List.mem_append.mp he2 with hv | hc
          · exact hDM i u hv
          · simp at hc
    · rw [Bool.not_eq_true] at hF
      rw [processPosts_normal _ _ _ _ _ _ hE hF]
      refine ⟨(if pv then [Event.openLog] else [Event.openBackup, Event.openLog]) ++
        ((postLoop localOff pv B (paginate localOff rs c fs).1.enum).evs ++
          ([Event.closeLog] ++ (if pv then [] else [Event.closeBackup]))),
        by simp, ?_, ?_, ?_⟩
      · intro e he
        rcases List.mem_append.mp he with hp | he2
        · cases pv <;> cases e <;> simp_all [isFetchPage]
        · rcases List.mem_append.mp he2 with hv | hc
          · exact hNoF e hv
          · cases pv <;> cases e <;> simp_all [isFetchPage]
      · have h1 : List.filterMap deleteIdx
            (if pv then [Event.openLog]
             else [Event.openBackup, Event.openLog]) = [] := by
          cases pv <;> rfl
        have h3 : List.filterMap deleteIdx
            ([Event.closeLog] ++ (if pv then [] else [Event.closeBackup])) = [] := by
          cases pv <;> rfl
        rw [List.filterMap_append, List.filterMap_append, h1, h3,
          List.append_nil, List.nil_append]
        exact hPW
      · intro i u hmem
        rcases List.mem_append.mp hmem with hp | he2
        · cases pv <;> simp_all
        · rcases List.mem_append.mp he2 with hv | hc
          · exact hDM i u hv
          · cases pv <;> simp_all

/-- C10: pagination runs to completion before any output: the trace starts
with all the page-fetch events, the remainder contains no fetch (so no
delete is issued while pagination is in progress), every delete call in the
remainder names a position and uri of the in-memory matched list built
during pagination, and the delete calls occur in strictly increasing
position order, i.e. exactly the order the matched posts were appended. -/
theorem c10_pipeline_order (localOff : Int) (rs : String → String → Bool)
    (c : Criteria) (pv : Bool) (B : Behavior) (fs : List Feed) :
    ((processPosts localOff rs c pv B fs).1.take (paginate localOff rs c fs).2
        = (List.range (paginate localOff rs c fs).2).map Event.fetchPage) ∧
    (∀ e ∈ (processPosts localOff rs c pv B fs).1.drop
        (paginate localOff rs c fs).2, isFetchPage e = false) ∧
    List.Pairwise (fun a b => a < b)
      (((processPosts localOff rs c pv B fs).1.drop
        (paginate localOff rs c fs).2).filterMap deleteIdx) ∧
    (∀ i u, Event.deleteCall i u ∈ (processPosts localOff rs c pv B fs).1.drop
        (paginate localOff rs c fs).2 →
      ∃ p, (i, p) ∈ (paginate localOff rs c fs).1.enum ∧ u = p.uri) := by
  obtain ⟨rest, htr, hnf, hpw, hdm⟩ := processPosts_trace_split localOff rs c pv B fs
  have hlen : ((List.range (paginate localOff rs c fs).2).map Event.fetchPage).length
      = (paginate localOff rs c fs).2 := by simp
  have htake : (processPosts localOff rs c pv B fs).1.take
      (paginate localOff rs c fs).2
      = (List.range (paginate localOff rs c fs).2).map Event.fetchPage := by
    rw [htr]; exact List.take_left' hlen
  have hdrop : (processPosts localOff rs c pv B fs).1.drop
      (paginate localOff rs c fs).2 = rest := by
    rw [htr]; exact List.drop_left' hlen
  rw [htake, hdrop]
  exact ⟨rfl, hnf, hpw, hdm⟩

theorem c10_pipeline_order_witness :
    (processPosts 0 rsNone sampleCrit false sampleB [sampleFeed]).1.take 1
      = [Event.fetchPage 0] :=
  (c10_pipeline_order 0 rsNone sampleCrit false sampleB [sampleFeed]).1

/-- C1: in non-preview mode, whenever the delete call for the post at
position i of the matched list appears in the trace, a backup write for
that position, carrying the post uri, its normalized UTC datetime and the
full raw payload (the fields of mkEntry), occurs strictly earlier in the
trace. The backup write does not depend on the delete outcome, so it
equally precedes every delete call that subsequently fails. -/
theorem c1_backup_precedes_delete (localOff : Int) (rs : String → String → Bool)
    (c : Criteria) (B : Behavior) (fs : List Feed) (i : Nat) (u : String)
    (h : Event.deleteCall i u ∈ (processPosts localOff rs c false B fs).1) :
    ∃ p, (i, p) ∈ (paginate localOff rs c fs).1.enum ∧ u = p.uri ∧
      precedes (Event.backupWrite i (mkEntry localOff p))
        (Event.deleteCall i u) (processPosts localOff rs c false B fs).1 := by
  by_cases hE : (paginate localOff rs c fs).1.isEmpty = true
  · rw [processPosts_empty _ _ _ _ _ _ hE] at h
    simp at h
  · rw [Bool.not_eq_true] at hE
    by_cases hF : (postLoop localOff false B
        (paginate localOff rs c fs).1.enum).fatal = true
    · rw [processPosts_fatal _ _ _ _ _ _ hE hF] at h ⊢
      have hm : Event.deleteCall i u
          ∈ (postLoop localOff false B (paginate localOff rs c fs).1.enum).evs := by
        simpa using h
      obtain ⟨p, hp, hu, hpre⟩ := postLoop_backup_precedes localOff B _ i u hm
      exact ⟨p, hp, hu, precedes_embed _ _ _ _ _ hpre⟩
    · rw [Bool.not_eq_true] at hF
      rw [processPosts_normal _ _ _ _ _ _ hE hF] at h ⊢
      have hm : Event.deleteCall i u
          ∈ (postLoop localOff false B (paginate localOff rs c fs).1.enum).evs := by
        simpa using h
      obtain ⟨p, hp, hu, hpre⟩ := postLoop_backup_precedes localOff B _ i u hm
      exact ⟨p, hp, hu,
        precedes_append_right _ _ _ _ (precedes_embed _ _ _ _ _ hpre)⟩

theorem c1_backup_precedes_delete_witness :
    precedes (Event.backupWrite 0 (mkEntry 0 samplePost))
      (Event.deleteCall 0 samplePost.uri)
      (processPosts 0 rsNone sampleCrit false sampleB [sampleFeed]).1 := by
  obtain ⟨p, hp, hu, hpre⟩ := c1_backup_precedes_delete 0 rsNone sampleCrit
    sampleB [sampleFeed] 0 samplePost.uri (by decide)
  have hev : (paginate 0 rsNone sampleCrit [sampleFeed]).1.enum
      = [(0, samplePost)] := rfl
  rw [hev] at hp
  simp only [List.mem_singleton, Prod.mk.injEq] at hp
  rw [hp.2] at hpre
  exact hpre

/-- C7: the claim fails on the code. In a non-preview run where a fatal
error propagates out of the processing loop (here a raising log write at
the first matched post), the backup file is opened but never closed: the
trace contains the open and no close, and the error propagates with no
result. Only the log file, held by the with statement, is closed. -/
theorem c7_counterexample :
    Event.openBackup
      ∈ (processPosts 0 rsNone sampleCrit false sampleBLogFatal [sampleFeed]).1 ∧
    Event.closeBackup
      ∉ (processPosts 0 rsNone sampleCrit false sampleBLogFatal [sampleFeed]).1 ∧
    (processPosts 0 rsNone sampleCrit false sampleBLogFatal [sampleFeed]).2
      = Except.error () :=
  ⟨by decide, by decide, rfl⟩

/-- C7 (amended): on every run of process_posts that returns normally,
including runs with per-post delete failures, the backup handle is closed
when it was opened: a non-preview run with a non-empty matched set ends
with the backup close, and a run with an empty matched set never opens the
backup file. On the propagated-fatal-error path the handle is left open
(see the counterexample). -/
theorem c7_backup_closed_on_ok (localOff : Int) (rs : String → String → Bool)
    (c : Criteria) (B : Behavior) (fs : List Feed) (r : RunResult)
    (h : (processPosts localOff rs c false B fs).2 = Except.ok r) :
    (0 < r.matched →
      Event.closeBackup ∈ (processPosts localOff rs c false B fs).1) ∧
    (r.matched = 0 →
      Event.openBackup ∉ (processPosts localOff rs c false B fs).1) := by
  by_cases hE : (paginate localOff rs c fs).1.isEmpty = true
  · rw [processPosts_empty _ _ _ _ _ _ hE] at h ⊢
    rw [Except.ok.injEq] at h
    subst h
    constructor
    · intro h0; exact absurd h0 (by simp)
    · intro _; simp
  · rw [Bool.not_eq_true] at hE
    by_cases hF : (postLoop localOff false B
        (paginate localOff rs c fs).1.enum).fatal = true
    · rw [processPosts_fatal _ _ _ _ _ _ hE hF] at h
      simp at h
    · rw [Bool.not_eq_true] at hF
      rw [processPosts_normal _ _ _ _ _ _ hE hF] at h ⊢
      rw [Except.ok.injEq] at h
      subst h
      constructor
      · intro _; simp
      · intro h0
        have hne := List.isEmpty_eq_false_iff_exists_mem.mp hE
        simp only at h0
        rw [List.length_eq_zero] at h0
        obtain ⟨x, hx⟩ := hne
        rw [h0] at hx
        simp at hx

theorem c7_backup_closed_on_ok_witness :
    Event.closeBackup
      ∈ (processPosts 0 rsNone sampleCrit false sampleBFail [sampleFeed]).1 :=
  (c7_backup_closed_on_ok 0 rsNone sampleCrit sampleBFail [sampleFeed]
    ⟨50, 1, 0, 1⟩ rfl).1 (by decide)

/-- C6: for every fetched post, `is_repost` is computed as true exactly when
the embed descriptor declares the repost/share view type
`app.bsky.embed.record#view`, for attribute-style objects and for mappings
alike; a post with no embed (`embedDeclaredType = none`) or with any other
declared type therefore has `is_repost = false`. -/
theorem c6_isRepost_iff_declared (e : Embed) :
    embedIsRepost e = true ↔ embedDeclaredType e = some repostViewType := by
  cases e with
  | noEmbed => simp [embedIsRepost, embedDeclaredType]
  | obj ty => simp [embedIsRepost, embedDeclaredType]
  | dict entries =>
      cases entries with
      | nil => simp [embedIsRepost, embedDeclaredType, List.lookup]
      | cons h t => simp [embedIsRepost, embedDeclaredType]

/-- C5: the claim fails on the code. An offset-aware timestamp is indeed
converted to UTC (first conjunct), and normalization is total (no fatal
error), but an offset-naive timestamp is NOT treated as already UTC:
`astimezone(timezone.utc)` presumes system local time and shifts the clock
(here by a +60 minute local offset), so the normalized instant differs from
the attach-UTC value the spec describes. The `except` fallback that would
attach UTC is unreachable. -/
theorem c5_naive_timestamp_shifted :
    normTime 0 (PyDateTime.mk 120 (some 60)) = 60 ∧
    normTime 60 (PyDateTime.mk 0 none) = -60 ∧
    specNormalizeUTC (PyDateTime.mk 0 none) = 0 ∧
    normTime 60 (PyDateTime.mk 0 none) ≠ specNormalizeUTC (PyDateTime.mk 0 none) := by
  decide

/-- C8: the claim fails on the code. With both the flag and the environment
variable set and non-empty, the flag value is used for login (the
environment is consulted only when the flag is absent or empty), contrary
to the stated env-over-flag precedence; the second and third conjuncts show
the environment is used only as a fallback. -/
theorem c8_flag_overrides_env :
    resolveToken (some "flag-pass") (some "env-pass") "typed-pass" = "flag-pass" ∧
    resolveToken none (some "env-pass") "typed-pass" = "env-pass" ∧
    resolveToken (some "") (some "env-pass") "typed-pass" = "env-pass" := by
  decide

end ByeSky
